import Mathlib

/-!
Verification of the kcidb multiplexing-driver specification.

The development shallowly embeds the code of `src/kcidb/db/test_mux.py`
(the `DummyDriver` sub-driver and the reference expectations for the
multiplexing driver) in Lean.  Interchange Format Versions `V1`..`V5`
of `kcidb_io.schema` are represented by the naturals `1`..`5`; a
version history is a list of such numbers.  Python's `int(a / b)` on
non-negative integers is modelled as exact rational flooring, i.e. as
natural-number division (the test suite only exercises values where
IEEE-754 double rounding agrees with the exact result).

The multiplexing driver itself (`kcidb/db/mux.py`) is not among the
provided sources: only its test file is.  Its model below is therefore
written from the specification (sections 4.2-4.4, 6) and anchored, where
the specification leaves freedom, on the reference outputs asserted by
`MuxDriverTestCase` in `src/kcidb/db/test_mux.py`; several
`model_ref_*` theorems below replay those assertions against the model.
-/

/-- Strict lexicographic order on version pairs, Python tuple `<`. -/
def lexLt (a b : Nat × Nat) : Prop :=
  a.1 < b.1 ∨ (a.1 = b.1 ∧ a.2 < b.2)

instance (a b : Nat × Nat) : Decidable (lexLt a b) :=
  inferInstanceAs (Decidable (_ ∨ _))

/-- Non-strict lexicographic order on version pairs, Python tuple `<=`. -/
def lexLe (a b : Nat × Nat) : Prop :=
  lexLt a b ∨ a = b

instance (a b : Nat × Nat) : Decidable (lexLe a b) :=
  inferInstanceAs (Decidable (_ ∨ _))

theorem lexLt_trans {a b c : Nat × Nat} (h1 : lexLt a b) (h2 : lexLt b c) :
    lexLt a c := by
  unfold lexLt at *
  omega

theorem lexLt_irrefl (a : Nat × Nat) : ¬ lexLt a a := by
  unfold lexLt
  omega

theorem not_lexLt_of_lexLe {a b : Nat × Nat} (h : lexLe a b) : ¬ lexLt b a := by
  unfold lexLe lexLt at *
  obtain ⟨a1, a2⟩ := a
  obtain ⟨b1, b2⟩ := b
  simp only [Prod.mk.injEq] at h
  omega

/-- Minimum of a list of naturals; `0` on the empty list. -/
def listMin : List Nat → Nat
  | [] => 0
  | [x] => x
  | x :: y :: rest => min x (listMin (y :: rest))

theorem listMin_le {l : List Nat} {x : Nat} (hx : x ∈ l) : listMin l ≤ x := by
  induction l with
  | nil => cases hx
  | cons a rest ih =>
    cases rest with
    | nil =>
      rcases List.mem_cons.mp hx with h | h
      · simp [listMin, h]
      · cases h
    | cons b rest' =>
      rcases List.mem_cons.mp hx with h | h
      · subst h
        exact min_le_left _ _
      · exact le_trans (min_le_right _ _) (ih h)

theorem listMin_mem {l : List Nat} (hl : l ≠ []) : listMin l ∈ l := by
  induction l with
  | nil => exact absurd rfl hl
  | cons a rest ih =>
    cases rest with
    | nil => simp [listMin]
    | cons b rest' =>
      show min a (listMin (b :: rest')) ∈ a :: b :: rest'
      rcases le_total a (listMin (b :: rest')) with h | h
      · simp [min_eq_left h]
      · have := ih (by simp)
        simp only [min_eq_right h]
        exact List.mem_cons_of_mem _ this

/-- Parse a run of decimal digits, accumulator style; fails on any
non-digit character.  Mirrors the digit handling of Python `int()`. -/
def parseDigitsAux : List Char → Nat → Option Nat
  | [], acc => some acc
  | c :: cs, acc =>
    if c.isDigit then parseDigitsAux cs (acc * 10 + (c.toNat - 48)) else none

/-- Python `int(string)` restricted to the plain forms `digits` and
`-digits` actually occurring in driver parameter strings. -/
def parseInt : List Char → Option Int
  | [] => none
  | '-' :: cs =>
    if cs = [] then none else (parseDigitsAux cs 0).map (fun n => -(n : Int))
  | cs => (parseDigitsAux cs 0).map (fun n => (n : Int))

/-- Python `string.split(":")`: split at every colon, keeping empty
fields. -/
def splitOnColonAux : List Char → List Char → List (List Char)
  | [], acc => [acc.reverse]
  | c :: cs, acc =>
    if c = ':' then acc.reverse :: splitOnColonAux cs []
    else splitOnColonAux cs (c :: acc)

def splitOnColon (cs : List Char) : List (List Char) :=
  splitOnColonAux cs []

/-- Parse every field of a parameter string as an integer; any failure
poisons the whole list (Python raises `ValueError`). -/
def parseIntList : List (List Char) → Option (List Int)
  | [] => some []
  | f :: fs =>
    match parseInt f, parseIntList fs with
    | some i, some is => some (i :: is)
    | _, _ => none

/-- The shared interchange-format history `V5.history`, represented by
the major version numbers of `V1`..`V5`. -/
def ioHistory : List Nat := [1, 2, 3, 4, 5]

/-- The seven `DummyDriver` parameters, before validation, exactly as
unpacked in `DummyDriver.__init__` with the defaults `1:5:1:1:0:0:1`. -/
structure DummyParams where
  minIoMajor : Int
  maxIoMajor : Int
  majorsPerIoSchema : Int
  majorStep : Int
  major : Int
  minor : Int
  minorsPerMajor : Int
deriving DecidableEq

/-- Parse an optional parameter string into `DummyParams`.

Mirrors `DummyDriver.__init__`: `params.split(":") if params else []`
feeds a generator of `int(...)` values which `zip_longest` pads with the
defaults `(1, 5, 1, 1, 0, 0, 1)`; more than seven fields make the tuple
unpacking fail, a non-integer field makes `int()` fail. -/
def parseDummyParams (params : Option (List Char)) : Option DummyParams :=
  let fields : List (List Char) :=
    match params with
    | none => []
    | some [] => []
    | some cs => splitOnColon cs
  if fields.length > 7 then none
  else
    match parseIntList fields with
    | none => none
    | some ints =>
      some { minIoMajor := ints.getD 0 1
             maxIoMajor := ints.getD 1 5
             majorsPerIoSchema := ints.getD 2 1
             majorStep := ints.getD 3 1
             major := ints.getD 4 0
             minor := ints.getD 5 0
             minorsPerMajor := ints.getD 6 1 }

/-- The driver's schema list: the interchange history restricted to
`[min_io_major, max_io_major]`, each version repeated
`majors_per_io_schema * minors_per_major` times
(`DummyDriver.__init__`, the `io_schemas` filter and the `self.schemas`
comprehension). -/
def dummySchemasOf (p : DummyParams) : List Nat :=
  ((ioHistory.filter
      (fun x : Nat =>
        decide (p.minIoMajor ≤ (x : Int)) && decide ((x : Int) ≤ p.maxIoMajor))).map
    (List.replicate (p.majorsPerIoSchema * p.minorsPerMajor).toNat)).flatten

/-- The conjunction of the `assert` statements of `DummyDriver.__init__`,
in source order. -/
def validDummyParams (p : DummyParams) : Bool :=
  decide (p.minIoMajor ≤ p.maxIoMajor) &&
  decide (1 ≤ p.majorsPerIoSchema) &&
  decide (1 ≤ p.majorStep) &&
  decide (0 ≤ p.major) &&
  decide (p.major % p.majorStep = 0) &&
  decide (0 ≤ p.minor) &&
  decide (1 ≤ p.minorsPerMajor) &&
  decide (p.minor < p.minorsPerMajor) &&
  decide (0 ≤ p.major / p.majorStep * p.minorsPerMajor + p.minor) &&
  decide (p.major / p.majorStep * p.minorsPerMajor + p.minor <
            ((dummySchemasOf p).length : Int))

/-- The configuration a constructed `DummyDriver` instance retains:
`self.schemas`, `self.major_step`, `self.minors_per_major`.  After
validation all retained numbers are non-negative, so they are stored as
naturals. -/
structure DummyCfg where
  schemas : List Nat
  majorStep : Nat
  minorsPerMajor : Nat
deriving DecidableEq

/-- A constructed `DummyDriver`: its immutable configuration plus the
mutable current version `self.major`, `self.minor`. -/
structure DummyState where
  cfg : DummyCfg
  major : Nat
  minor : Nat
deriving DecidableEq

/-- Construct a `DummyDriver` from a parameter string
(`DummyDriver.__init__`): parse, run the assertions, and keep the
schema list and current version.  `none` models the constructor raising
(`ValueError` from parsing or `AssertionError` from validation). -/
def mkDummyDriver (params : Option (List Char)) : Option DummyState :=
  match parseDummyParams params with
  | none => none
  | some p =>
    if validDummyParams p then
      some { cfg := { schemas := dummySchemasOf p
                      majorStep := p.majorStep.toNat
                      minorsPerMajor := p.minorsPerMajor.toNat }
             major := p.major.toNat
             minor := p.minor.toNat }
    else none

/-- The key `(major, minor)` that `DummyDriver.get_schemas` assigns to
list index `index`:
`(int(index / minors_per_major * major_step), index % minors_per_major)`,
with the float expression modelled as exact flooring. -/
def dummyKey (majorStep minorsPerMajor index : Nat) : Nat × Nat :=
  (index * majorStep / minorsPerMajor, index % minorsPerMajor)

/-- `DummyDriver.get_schemas`: the ordered association list from version
pairs to interchange versions, in index (= insertion) order. -/
def dummyGetSchemas (d : DummyState) : List ((Nat × Nat) × Nat) :=
  (List.range d.cfg.schemas.length).map
    (fun index =>
      (dummyKey d.cfg.majorStep d.cfg.minorsPerMajor index,
       d.cfg.schemas.getD index 0))

/-- `DummyDriver.get_schema`: the current version pair and
`self.schemas[int(self.major / self.major_step) * self.minors_per_major]`.
List indexing is modelled totally with default `0`; every use below is
within bounds. -/
def dummyGetSchema (d : DummyState) : (Nat × Nat) × Nat :=
  ((d.major, d.minor),
   d.cfg.schemas.getD (d.major / d.cfg.majorStep * d.cfg.minorsPerMajor) 0)

/-- The driver's current index in its schema list, as fixed by the
`__init__` assertion
`major / major_step * minors_per_major + minor < len(schemas)`. -/
def dummyIndex (d : DummyState) : Nat :=
  d.major / d.cfg.majorStep * d.cfg.minorsPerMajor + d.minor

/-- `DummyDriver.upgrade`: the target must be one of the available
schema versions and must compare `>=` (Python tuple order, non-strict)
against the current version; on success only `self.major, self.minor`
change. -/
def dummyUpgrade (d : DummyState) (t : Nat × Nat) : Option DummyState :=
  if (dummyGetSchemas d).any (fun e => e.1 = t) ∧ lexLe (d.major, d.minor) t then
    some { d with major := t.1, minor := t.2 }
  else none

/-- States reachable from `d` by zero or more successful upgrades. -/
inductive DummyReach : DummyState → DummyState → Prop
  | refl (d : DummyState) : DummyReach d d
  | step (d1 d2 d3 : DummyState) (t : Nat × Nat) :
      DummyReach d1 d2 → dummyUpgrade d2 t = some d3 → DummyReach d1 d3

/-- Modelled from the spec: the Version Composer's view of one
sub-driver (spec section 4.2 step 1; `kcidb/db/mux.py` is absent from
the sources).  `ios` is the sub-driver's ordered list of interchange
versions (the values of its `get_schemas()`), `minors` the minor
components of the corresponding keys, and `pos` the sub-driver's
current position in that sequence. -/
structure SubView where
  ios : List Nat
  minors : List Nat
  pos : Nat
deriving DecidableEq

instance : Inhabited SubView :=
  ⟨⟨[], [], 0⟩⟩

/-- The interchange version at a sub-driver's current position. -/
def curVal (v : SubView) : Nat :=
  v.ios.getD v.pos 0

/-- The effective interchange version of a composite state: the minimum
over all sub-drivers (spec section 4.2 step 2). -/
def minVal (subs : List SubView) : Nat :=
  listMin (subs.map curVal)

/-- Remaining steps of one sub-driver up to its own maximum position. -/
def remSteps (v : SubView) : Nat :=
  v.ios.length - 1 - v.pos

/-- Total remaining steps of a composite state; the walk's termination
measure (spec section 3, finiteness invariant). -/
def remTotal (subs : List SubView) : Nat :=
  (subs.map remSteps).sum

/-- Resolve the choice between an advanceable head sub-driver and the
best candidate of the tail (already index-shifted by one): the tail
candidate wins only when its interchange version is strictly smaller,
so ties go to the earlier (configuration-order) sub-driver. -/
def pickResolve (v : SubView) : Option (Nat × Nat) → Nat × Nat
  | some p => if p.2 < curVal v then (p.1 + 1, p.2) else (0, curVal v)
  | none => (0, curVal v)

/-- Combine the head sub-driver with the best candidate of the tail. -/
def pickBetter (v : SubView) (r : Option (Nat × Nat)) : Option (Nat × Nat) :=
  if v.pos + 1 < v.ios.length then some (pickResolve v r)
  else r.map (fun p => (p.1 + 1, p.2))

/-- Modelled from the spec: choose the sub-driver to advance next
(spec section 4.2 step 3) - among the sub-drivers that can still
advance, the one holding the minimum interchange version, ties broken
by configuration order.  Returns its index and its current interchange
version. -/
def pickAux : List SubView → Option (Nat × Nat)
  | [] => none
  | v :: rest => pickBetter v (pickAux rest)

/-- One sub-driver advanced by one step. -/
def advance (v : SubView) : SubView :=
  ⟨v.ios, v.minors, v.pos + 1⟩

/-- Advance the sub-driver at index `i` by one step. -/
def stepAt (subs : List SubView) (i : Nat) : List SubView :=
  subs.set i (advance (subs.getD i default))

/-- Modelled from the spec: the composite version assigned after
advancing sub-driver `i` (spec section 4.2 step 5; the exact minor rule
is fixed by the reference outputs of
`MuxDriverTestCase.test_schemas`, "Multiple minor versions"): if the
advanced sub-driver's new own version has minor 0 the composite major
increments, otherwise the composite minor increments. -/
def stepVer (subs' : List SubView) (i : Nat) (ver : Nat × Nat) : Nat × Nat :=
  let v := subs'.getD i default
  if v.minors.getD v.pos 0 = 0 then (ver.1 + 1, 0) else (ver.1, ver.2 + 1)

/-- One enumerated composite state: its composite version, the
sub-driver positions, and the effective interchange version. -/
structure MEntry where
  ver : Nat × Nat
  subs : List SubView
  val : Nat
deriving DecidableEq

instance : Inhabited MEntry :=
  ⟨⟨(0, 0), [], 0⟩⟩

/-- Modelled from the spec: the composer's walk with explicit fuel
(spec section 4.2 step 3): record the current state, then repeatedly
advance one sub-driver one step until none can advance. -/
def walkF : Nat → List SubView → (Nat × Nat) → List MEntry
  | 0, subs, ver => [⟨ver, subs, minVal subs⟩]
  | fuel + 1, subs, ver =>
    ⟨ver, subs, minVal subs⟩ ::
      (match pickAux subs with
       | none => []
       | some p => walkF fuel (stepAt subs p.1) (stepVer (stepAt subs p.1) p.1 ver))

/-- The composer's walk from a composite state: `remTotal` is exactly
the number of single-sub-driver steps until every sub-driver is at its
maximum, so it suffices as fuel. -/
def walk (subs : List SubView) (ver : Nat × Nat) : List MEntry :=
  walkF (remTotal subs) subs ver

/-- Modelled from the spec: the Mux Driver state (spec section 4.4 and
design note section 9): the sub-driver list in configuration order, the
current composite version, and the composite space eagerly built at
construction. -/
structure MuxState where
  subs : List SubView
  ver : Nat × Nat
  schemas : List MEntry
deriving DecidableEq

/-- Modelled from the spec: Mux Driver construction - composite
versions start at `(0, 0)` at the sub-drivers' initial positions, and
the composite space is enumerated eagerly. -/
def mkMux (views : List SubView) : MuxState :=
  ⟨views, (0, 0), walk views (0, 0)⟩

/-- `getSchemas()` of the Mux Driver: the ordered mapping from
composite versions to effective interchange versions. -/
def muxGetSchemas (s : MuxState) : List ((Nat × Nat) × Nat) :=
  s.schemas.map (fun e => (e.ver, e.val))

/-- `getSchema()` of the Mux Driver: the current composite version and
the effective (minimum) interchange version of the current state. -/
def muxGetSchema (s : MuxState) : (Nat × Nat) × Nat :=
  (s.ver, minVal s.subs)

/-- The Upgrade Orchestrator's failure modes (spec section 4.3). -/
inductive MuxErr
  | invalidTarget
  | regression
deriving DecidableEq

/-- Modelled from the spec: `upgrade(target)` (spec section 4.3).  The
target must appear in the composite space (otherwise
`InvalidTargetError`) and must be strictly greater than the current
composite version (otherwise `RegressionError`); the membership check
comes first, as in `DummyDriver.upgrade`.  On success the sub-drivers
are advanced to the target entry's positions and the current composite
version becomes the target. -/
def muxUpgrade (s : MuxState) (t : Nat × Nat) : Except MuxErr MuxState :=
  match s.schemas.find? (fun e => decide (e.ver = t)) with
  | none => .error .invalidTarget
  | some e =>
    if lexLt s.ver t then .ok ⟨e.subs, t, s.schemas⟩ else .error .regression

/-- Upgrade through a list of targets, stopping at the first failure. -/
def upgradeSeq (s : MuxState) : List (Nat × Nat) → Except MuxErr MuxState
  | [] => .ok s
  | t :: ts =>
    match muxUpgrade s t with
    | .ok s' => upgradeSeq s' ts
    | .error e => .error e

/-- The whitespace characters Python `str.split()` (no argument) splits
on: space, tab, newline, carriage return, vertical tab, form feed. -/
def isSpaceC (c : Char) : Bool :=
  c = ' ' || c = '\t' || c = '\n' || c = '\r' || c = '\x0b' || c = '\x0c'

/-- Python `str.split()` with no argument: split on runs of whitespace,
discarding empty fields (accumulator holds the current field
reversed). -/
def wsSplitAux : List Char → List Char → List (List Char)
  | [], acc => if acc.isEmpty then [] else [acc.reverse]
  | c :: cs, acc =>
    if isSpaceC c then
      if acc.isEmpty then wsSplitAux cs [] else acc.reverse :: wsSplitAux cs []
    else wsSplitAux cs (c :: acc)

def wsSplit (cs : List Char) : List (List Char) :=
  wsSplitAux cs []

/-- The Version Composer's view of a constructed `DummyDriver`: its
interchange-version list (the values of `get_schemas()`), the minor
components of its keys, and its current index. -/
def toView (d : DummyState) : SubView :=
  { ios := d.cfg.schemas
    minors := (List.range d.cfg.schemas.length).map (· % d.cfg.minorsPerMajor)
    pos := dummyIndex d }

/-- Modelled from the spec: parse one configuration entry
`<driverName>` or `<driverName>:<paramString>` (spec section 6) against
the `DummyMuxDriver` registry `dict(dummy=DummyDriver)`; unknown names
and malformed parameters fail. -/
def parseToken (tok : List Char) : Option SubView :=
  let name := tok.takeWhile (fun c => !(c = ':'))
  let rest := tok.dropWhile (fun c => !(c = ':'))
  let params : Option (List Char) :=
    match rest with
    | [] => none
    | _ :: ps => some ps
  if name = "dummy".toList then (mkDummyDriver params).map toView else none

/-- Parse every configuration entry; any failure fails the whole
configuration (`ConfigurationError`). -/
def parseTokens : List (List Char) → Option (List SubView)
  | [] => some []
  | t :: ts =>
    match parseToken t, parseTokens ts with
    | some v, some vs => some (v :: vs)
    | _, _ => none

/-- Modelled from the spec: construct a `DummyMuxDriver` from a
configuration string - split on whitespace runs, instantiate each
sub-driver, and build the composite space (spec section 6,
configuration surface). -/
def mkMuxFromConfig (cs : List Char) : Option MuxState :=
  (parseTokens (wsSplit cs)).map mkMux

/-- Last element of a list, with a default for the empty list. -/
def lastD {α : Type} : List α → α → α
  | [], d => d
  | x :: xs, _ => lastD xs x

/-- The state of a successful upgrade, `none` on failure. -/
def okOf : Except MuxErr MuxState → Option MuxState
  | .ok s => some s
  | .error _ => none

/-- The error of a failed upgrade, `none` on success. -/
def errOf : Except MuxErr MuxState → Option MuxErr
  | .error e => some e
  | .ok _ => none

/-- A list of values, each repeated `B` times, in order: the shape of
every `DummyDriver` schema list. -/
def blockRep (B : Nat) (ios : List Nat) : List Nat :=
  (ios.map (List.replicate B)).flatten

/-- Interleave configuration entries with separator runs:
`lead ++ t1 ++ s1 ++ t2 ++ s2 ++ ...`. -/
def assemble : List Char → List (List Char × List Char) → List Char
  | lead, [] => lead
  | lead, p :: rest => lead ++ p.1 ++ assemble p.2 rest

/-- Well-formed entry/separator pairs: every entry is nonempty and free
of whitespace, every separator is all whitespace, and every separator
except the final one is nonempty. -/
def goodPairs : List (List Char × List Char) → Bool
  | [] => true
  | p :: rest =>
    decide (p.1 ≠ []) && p.1.all (fun c => !isSpaceC c) && p.2.all isSpaceC &&
      (decide (rest = []) || (decide (p.2 ≠ []) && goodPairs rest))

/-- A single five-version sub-driver view (the default `dummy`). -/
def vDefault : List SubView :=
  [⟨[1, 2, 3, 4, 5], [0, 0, 0, 0, 0], 0⟩]

/-- Two sub-driver views, the second with two minor versions per major
(the `dummy:1:5:1:1:0:0:1 dummy:1:5:1:1:0:0:2` configuration). -/
def vMinors : List SubView :=
  [⟨[1, 2, 3, 4, 5], [0, 0, 0, 0, 0], 0⟩,
   ⟨[1, 1, 2, 2, 3, 3, 4, 4, 5, 5], [0, 1, 0, 1, 0, 1, 0, 1, 0, 1], 0⟩]

/-- The mux state after upgrading the default single-driver mux to
composite version `(2, 0)`. -/
def sAfterTwo : MuxState :=
  (okOf (muxUpgrade (mkMux vDefault) (2, 0))).getD (mkMux vDefault)

/-- The "Disconnected I/O version histories" configuration of
`MuxDriverTestCase.test_schemas`. -/
def cfgDisconnected : List Char :=
  ("dummy:1:2:1:1:0 dummy:4:5:1:1:0").toList

/-- The composite space the disconnected configuration must produce. -/
def entriesDisconnected : List ((Nat × Nat) × Nat) :=
  [((0, 0), 1), ((1, 0), 2), ((2, 0), 2)]

/-- The default `DummyDriver` state (`DummyMuxDriver("dummy")`). -/
def dW0 : DummyState :=
  ⟨⟨[1, 2, 3, 4, 5], 1, 1⟩, 0, 0⟩

/-- The default `DummyDriver` after upgrading to version `(2, 0)`. -/
def dW1 : DummyState :=
  ⟨⟨[1, 2, 3, 4, 5], 1, 1⟩, 2, 0⟩

/-- The parameters parsed from the invalid string `"10:1"`
(minimum interchange major 10 above maximum 1). -/
def pW8 : DummyParams :=
  ⟨10, 1, 1, 1, 0, 0, 1⟩

/-- Two `dummy` entries separated by a single space. -/
def pairsSpace : List (List Char × List Char) :=
  [("dummy".toList, [' ']), ("dummy".toList, [])]

/-- Two `dummy` entries separated by the long whitespace run of
`MuxDriverTestCase.test_param_parsing`. -/
def pairsLong : List (List Char × List Char) :=
  [("dummy".toList, [' ', '\r', '\n', '\t', '\x0b']), ("dummy".toList, [])]


theorem remTotal_nil : remTotal [] = 0 := rfl

theorem remTotal_cons (v : SubView) (rest : List SubView) :
    remTotal (v :: rest) = remSteps v + remTotal rest := by
  simp [remTotal]

theorem remTotal_set (subs : List SubView) (i : Nat) (w : SubView)
    (hi : i < subs.length) :
    remTotal (subs.set i w) + remSteps (subs.getD i default) =
      remTotal subs + remSteps w := by
  induction subs generalizing i with
  | nil => cases hi
  | cons v rest ih =>
    cases i with
    | zero =>
      simp [remTotal_cons]
      omega
    | succ i' =>
      have hi' : i' < rest.length := by
        simpa using hi
      simp only [List.set_cons_succ, remTotal_cons, List.getD_cons_succ]
      have := ih i' hi'
      omega

theorem pickAux_nil : pickAux [] = none := rfl

theorem pickAux_cons (v : SubView) (rest : List SubView) :
    pickAux (v :: rest) = pickBetter v (pickAux rest) := rfl

theorem pickAux_none_rem {subs : List SubView} (h : pickAux subs = none) :
    remTotal subs = 0 := by
  induction subs with
  | nil => rfl
  | cons v rest ih =>
    rw [pickAux_cons, pickBetter] at h
    by_cases hv : v.pos + 1 < v.ios.length
    · rw [if_pos hv] at h
      cases h
    · rw [if_neg hv] at h
      have hrest : pickAux rest = none := by
        cases hr : pickAux rest with
        | none => rfl
        | some q => rw [hr] at h; cases h
      have h0 : remSteps v = 0 := by
        unfold remSteps
        omega
      rw [remTotal_cons, ih hrest, h0]

theorem pickAux_some {subs : List SubView} {p : Nat × Nat}
    (h : pickAux subs = some p) :
    p.1 < subs.length ∧
      (subs.getD p.1 default).pos + 1 < (subs.getD p.1 default).ios.length := by
  induction subs generalizing p with
  | nil => cases h
  | cons v rest ih =>
    rw [pickAux_cons, pickBetter] at h
    by_cases hv : v.pos + 1 < v.ios.length
    · rw [if_pos hv] at h
      cases hr : pickAux rest with
      | none =>
        rw [hr] at h
        simp only [pickResolve] at h
        cases h
        exact ⟨by simp, hv⟩
      | some q =>
        rw [hr] at h
        simp only [pickResolve] at h
        split at h
        · cases h
          obtain ⟨h1, h2⟩ := ih hr
          constructor
          · simpa using h1
          · simpa using h2
        · cases h
          exact ⟨by simp, hv⟩
    · rw [if_neg hv] at h
      cases hr : pickAux rest with
      | none => rw [hr] at h; cases h
      | some q =>
        rw [hr] at h
        simp only [Option.map_some'] at h
        cases h
        obtain ⟨h1, h2⟩ := ih hr
        constructor
        · simpa using h1
        · simpa using h2

theorem remSteps_advance (v : SubView) (h : v.pos + 1 < v.ios.length) :
    remSteps (advance v) + 1 = remSteps v := by
  simp only [remSteps, advance]
  omega

theorem remTotal_stepAt {subs : List SubView} {i : Nat}
    (hi : i < subs.length)
    (hstep : (subs.getD i default).pos + 1 < (subs.getD i default).ios.length) :
    remTotal (stepAt subs i) + 1 = remTotal subs := by
  unfold stepAt
  have h := remTotal_set subs i (advance (subs.getD i default)) hi
  have h1 := remSteps_advance (subs.getD i default) hstep
  omega

theorem length_stepAt (subs : List SubView) (i : Nat) :
    (stepAt subs i).length = subs.length := by
  simp [stepAt]

theorem walkF_zero (subs : List SubView) (ver : Nat × Nat) :
    walkF 0 subs ver = [⟨ver, subs, minVal subs⟩] := rfl

theorem walkF_succ_none {subs : List SubView} {ver : Nat × Nat} {n : Nat}
    (hp : pickAux subs = none) :
    walkF (n + 1) subs ver = [⟨ver, subs, minVal subs⟩] := by
  simp only [walkF, hp]

theorem walkF_succ_some {subs : List SubView} {ver : Nat × Nat} {n : Nat}
    {p : Nat × Nat} (hp : pickAux subs = some p) :
    walkF (n + 1) subs ver =
      ⟨ver, subs, minVal subs⟩ ::
        walkF n (stepAt subs p.1) (stepVer (stepAt subs p.1) p.1 ver) := by
  simp only [walkF, hp]

theorem walkF_length (fuel : Nat) :
    ∀ (subs : List SubView) (ver : Nat × Nat), remTotal subs ≤ fuel →
      (walkF fuel subs ver).length = remTotal subs + 1 := by
  induction fuel with
  | zero =>
    intro subs ver h
    rw [walkF_zero]
    simp
    omega
  | succ n ih =>
    intro subs ver h
    cases hp : pickAux subs with
    | none =>
      rw [walkF_succ_none hp]
      simp [pickAux_none_rem hp]
    | some p =>
      obtain ⟨hi, hstep⟩ := pickAux_some hp
      have hrem := remTotal_stepAt hi hstep
      rw [walkF_succ_some hp]
      simp only [List.length_cons]
      rw [ih _ _ (by omega)]
      omega

theorem walkF_cons (fuel : Nat) (subs : List SubView) (ver : Nat × Nat) :
    ∃ t, walkF fuel subs ver = ⟨ver, subs, minVal subs⟩ :: t := by
  cases fuel with
  | zero => exact ⟨[], rfl⟩
  | succ n =>
    cases hp : pickAux subs with
    | none => exact ⟨[], walkF_succ_none hp⟩
    | some p => exact ⟨_, walkF_succ_some hp⟩

theorem walkF_mem (fuel : Nat) :
    ∀ (subs : List SubView) (ver : Nat × Nat) (e : MEntry),
      e ∈ walkF fuel subs ver →
      e.val = minVal e.subs ∧ e.subs.length = subs.length := by
  induction fuel with
  | zero =>
    intro subs ver e he
    rw [walkF_zero] at he
    simp only [List.mem_singleton] at he
    subst he
    exact ⟨rfl, rfl⟩
  | succ n ih =>
    intro subs ver e he
    cases hp : pickAux subs with
    | none =>
      rw [walkF_succ_none hp] at he
      simp only [List.mem_singleton] at he
      subst he
      exact ⟨rfl, rfl⟩
    | some p =>
      rw [walkF_succ_some hp] at he
      rcases List.mem_cons.mp he with rfl | he'
      · exact ⟨rfl, rfl⟩
      · have := ih _ _ _ he'
        refine ⟨this.1, ?_⟩
        rw [this.2, length_stepAt]

theorem lexLt_stepVer (subs' : List SubView) (i : Nat) (ver : Nat × Nat) :
    lexLt ver (stepVer subs' i ver) := by
  simp only [stepVer]
  split
  · exact Or.inl (by omega)
  · exact Or.inr ⟨rfl, by omega⟩

theorem walkF_chain (fuel : Nat) :
    ∀ (subs : List SubView) (ver : Nat × Nat),
      List.Chain' (fun a b : MEntry => lexLt a.ver b.ver)
        (walkF fuel subs ver) := by
  induction fuel with
  | zero =>
    intro subs ver
    rw [walkF_zero]
    simp
  | succ n ih =>
    intro subs ver
    cases hp : pickAux subs with
    | none =>
      rw [walkF_succ_none hp]
      simp
    | some p =>
      rw [walkF_succ_some hp]
      obtain ⟨t, ht⟩ :=
        walkF_cons n (stepAt subs p.1) (stepVer (stepAt subs p.1) p.1 ver)
      rw [ht, List.chain'_cons]
      exact ⟨lexLt_stepVer _ _ _, ht ▸ ih _ _⟩

instance : IsTrans MEntry (fun a b => lexLt a.ver b.ver) :=
  ⟨fun _ _ _ => lexLt_trans⟩

theorem walk_pairwise (subs : List SubView) (ver : Nat × Nat) :
    List.Pairwise (fun a b : MEntry => lexLt a.ver b.ver) (walk subs ver) :=
  List.chain'_iff_pairwise.mp (walkF_chain _ _ _)

theorem walk_length (subs : List SubView) (ver : Nat × Nat) :
    (walk subs ver).length = remTotal subs + 1 :=
  walkF_length _ _ _ (le_refl _)

theorem walk_mem {subs : List SubView} {ver : Nat × Nat} {e : MEntry}
    (he : e ∈ walk subs ver) :
    e.val = minVal e.subs ∧ e.subs.length = subs.length :=
  walkF_mem _ _ _ _ he

theorem walk_cons (subs : List SubView) (ver : Nat × Nat) :
    ∃ t, walk subs ver = ⟨ver, subs, minVal subs⟩ :: t :=
  walkF_cons _ _ _

theorem lastD_cons {α : Type} (x : α) (xs : List α) (d : α) :
    lastD (x :: xs) d = lastD xs x := rfl

theorem lastD_mem {α : Type} : ∀ (l : List α) (d : α), lastD l d ∈ d :: l := by
  intro l
  induction l with
  | nil => intro d; simp [lastD]
  | cons x xs ih =>
    intro d
    rw [lastD_cons]
    rcases List.mem_cons.mp (ih x) with h | h
    · rw [h]
      simp
    · simp [h]

theorem lexLt_le_trans {a b c : Nat × Nat} (h1 : lexLt a b) (h2 : lexLe b c) :
    lexLe a c := by
  rcases h2 with h2 | rfl
  · exact Or.inl (lexLt_trans h1 h2)
  · exact Or.inl h1

theorem mem_lexLe_lastD :
    ∀ (l : List MEntry) (d : MEntry),
      List.Pairwise (fun a b : MEntry => lexLt a.ver b.ver) (d :: l) →
      ∀ x ∈ d :: l, lexLe x.ver ((lastD l d).ver) := by
  intro l
  induction l with
  | nil =>
    intro d _ x hx
    simp only [List.mem_singleton] at hx
    subst hx
    exact Or.inr rfl
  | cons b l' ih =>
    intro d hpw x hx
    rw [lastD_cons]
    have hpw' : List.Pairwise (fun a b : MEntry => lexLt a.ver b.ver) (b :: l') :=
      (List.pairwise_cons.mp hpw).2
    have hdb : lexLt d.ver b.ver :=
      (List.pairwise_cons.mp hpw).1 b (by simp)
    rcases List.mem_cons.mp hx with rfl | hx'
    · exact lexLt_le_trans hdb (ih b hpw' b (by simp))
    · exact ih b hpw' x hx'

theorem muxUpgrade_none {s : MuxState} {t : Nat × Nat}
    (h : s.schemas.find? (fun e => decide (e.ver = t)) = none) :
    muxUpgrade s t = .error .invalidTarget := by
  simp only [muxUpgrade, h]

theorem muxUpgrade_some {s : MuxState} {t : Nat × Nat} {e : MEntry}
    (h : s.schemas.find? (fun e => decide (e.ver = t)) = some e) :
    muxUpgrade s t =
      if lexLt s.ver t then .ok ⟨e.subs, t, s.schemas⟩
      else .error .regression := by
  simp only [muxUpgrade, h]

theorem upgradeSeq_cons_ok {s s' : MuxState} {t : Nat × Nat}
    {ts : List (Nat × Nat)} (h : muxUpgrade s t = .ok s') :
    upgradeSeq s (t :: ts) = upgradeSeq s' ts := by
  simp only [upgradeSeq, h]

theorem find?_first {pre : List MEntry} {e' : MEntry} (rest : List MEntry)
    (hp : ∀ x ∈ pre, x.ver ≠ e'.ver) :
    (pre ++ e' :: rest).find? (fun x => decide (x.ver = e'.ver)) = some e' := by
  induction pre with
  | nil =>
    apply List.find?_cons_of_pos
    simp
  | cons a pre' ih =>
    rw [List.cons_append]
    rw [List.find?_cons_of_neg]
    · exact ih (fun x hx => hp x (List.mem_cons_of_mem _ hx))
    · simp only [decide_eq_true_eq]
      exact hp a (by simp)

theorem upgradeSeq_entries (E : List MEntry)
    (hpw : List.Pairwise (fun a b : MEntry => lexLt a.ver b.ver) E) :
    ∀ (rest pre : List MEntry) (e : MEntry),
      E = pre ++ e :: rest →
      upgradeSeq ⟨e.subs, e.ver, E⟩ (rest.map MEntry.ver) =
        .ok ⟨(lastD rest e).subs, (lastD rest e).ver, E⟩ := by
  intro rest
  induction rest with
  | nil =>
    intro pre e hE
    simp [upgradeSeq, lastD]
  | cons e' rest' ih =>
    intro pre e hE
    have hshape : E = (pre ++ [e]) ++ e' :: rest' := by
      rw [hE]
      simp
    have hbefore : ∀ x ∈ pre ++ [e], lexLt x.ver e'.ver := by
      intro x hx
      have h := (List.pairwise_append.mp (hshape ▸ hpw)).2.2
      exact h x hx e' (by simp)
    have hfind : E.find? (fun x => decide (x.ver = e'.ver)) = some e' := by
      rw [hshape]
      exact find?_first rest' (fun x hx heq => lexLt_irrefl e'.ver (heq ▸ hbefore x hx))
    have hup : muxUpgrade ⟨e.subs, e.ver, E⟩ e'.ver = .ok ⟨e'.subs, e'.ver, E⟩ := by
      rw [muxUpgrade_some hfind]
      rw [if_pos (hbefore e (by simp))]
    rw [List.map_cons, upgradeSeq_cons_ok hup, lastD_cons]
    exact ih (pre ++ [e]) e' hshape

theorem muxKeys_eq (s : MuxState) :
    (muxGetSchemas s).map Prod.fst = s.schemas.map MEntry.ver := by
  simp [muxGetSchemas, List.map_map]

/-- Model validation: `DummyMuxDriver("dummy")` (test_param_parsing). -/
theorem model_ref_single :
    (mkMuxFromConfig ("dummy").toList).map muxGetSchemas =
      some [((0, 0), 1), ((1, 0), 2), ((2, 0), 3), ((3, 0), 4), ((4, 0), 5)] := by
  decide

/-- Model validation: `DummyMuxDriver("dummy dummy")` (test_param_parsing). -/
theorem model_ref_two :
    (mkMuxFromConfig ("dummy dummy").toList).map muxGetSchemas =
      some [((0, 0), 1), ((1, 0), 1), ((2, 0), 2), ((3, 0), 2), ((4, 0), 3),
            ((5, 0), 3), ((6, 0), 4), ((7, 0), 4), ((8, 0), 5)] := by
  decide

/-- Model validation: `DummyMuxDriver("dummy:1:3 dummy")`
(test_param_parsing). -/
theorem model_ref_first_params :
    (mkMuxFromConfig ("dummy:1:3 dummy").toList).map muxGetSchemas =
      some [((0, 0), 1), ((1, 0), 1), ((2, 0), 2), ((3, 0), 2), ((4, 0), 3),
            ((5, 0), 3), ((6, 0), 3)] := by
  decide

/-- Model validation: the three-driver staggered configuration of
test_schemas ends at composite version `(19, 0) -> V5` with 20
entries. -/
theorem model_ref_staggered :
    (mkMuxFromConfig ("dummy:1:5:1:1:0 dummy:1:5:2:1:2 dummy:1:5:3:1:6").toList).map
        muxGetSchemas =
      some [((0, 0), 1), ((1, 0), 2), ((2, 0), 2), ((3, 0), 2),
            ((4, 0), 3), ((5, 0), 3), ((6, 0), 3), ((7, 0), 3),
            ((8, 0), 3), ((9, 0), 3), ((10, 0), 4), ((11, 0), 4),
            ((12, 0), 4), ((13, 0), 4), ((14, 0), 4), ((15, 0), 4),
            ((16, 0), 5), ((17, 0), 5), ((18, 0), 5), ((19, 0), 5)] := by
  decide

/-- Model validation: the "Misaligned I/O version histories"
configuration of test_schemas. -/
theorem model_ref_misaligned :
    (mkMuxFromConfig ("dummy:2:5:1:1:0 dummy:1:4:1:1:0 dummy:2:3:1:1:0").toList).map
        muxGetSchemas =
      some [((0, 0), 1), ((1, 0), 2), ((2, 0), 2), ((3, 0), 2),
            ((4, 0), 3), ((5, 0), 3), ((6, 0), 3), ((7, 0), 3)] := by
  decide

/-- Model validation: the first "Multiple minor versions" configuration
of test_schemas. -/
theorem model_ref_minors :
    (mkMuxFromConfig ("dummy:1:5:1:1:0:0:1 dummy:1:5:1:1:0:0:2").toList).map
        muxGetSchemas =
      some [((0, 0), 1), ((1, 0), 1), ((1, 1), 1),
            ((2, 0), 2), ((3, 0), 2), ((3, 1), 2),
            ((4, 0), 3), ((5, 0), 3), ((5, 1), 3),
            ((6, 0), 4), ((7, 0), 4), ((7, 1), 4),
            ((8, 0), 5), ((8, 1), 5)] := by
  decide

/-- Model validation: the second "Multiple minor versions"
configuration of test_schemas (drivers swapped). -/
theorem model_ref_minors_swapped :
    (mkMuxFromConfig ("dummy:1:5:1:1:0:0:2 dummy:1:5:1:1:0:0:1").toList).map
        muxGetSchemas =
      some [((0, 0), 1), ((0, 1), 1), ((1, 0), 1),
            ((2, 0), 2), ((2, 1), 2), ((3, 0), 2),
            ((4, 0), 3), ((4, 1), 3), ((5, 0), 3),
            ((6, 0), 4), ((6, 1), 4), ((7, 0), 4),
            ((8, 0), 5), ((8, 1), 5)] := by
  decide

/-- Model validation: a freshly constructed mux reports composite
version `(0, 0)` and the minimum interchange version, V1, even with
staggered sub-driver starting positions. -/
theorem model_ref_current :
    (mkMuxFromConfig ("dummy:1:5:1:1:0 dummy:1:5:2:1:2 dummy:1:5:3:1:6").toList).map
        muxGetSchema = some ((0, 0), 1) := by
  decide

/-- C1: in every composite state enumerated by the composer, the
effective Interchange Format Version recorded with that state's
Composite Version equals the minimum of the sub-drivers' interchange
versions at their positions in that state, and in particular is never
greater than any sub-driver's interchange version. -/
theorem claim1 (views : List SubView) (hne : views ≠ []) :
    ∀ e ∈ (mkMux views).schemas,
      (∃ v ∈ e.subs, e.val = curVal v) ∧ ∀ v ∈ e.subs, e.val ≤ curVal v := by
  intro e he
  have he' : e ∈ walk views (0, 0) := he
  obtain ⟨hval, hlen⟩ := walk_mem he'
  have hsubs_ne : e.subs ≠ [] := by
    intro h0
    rw [h0] at hlen
    exact hne (List.length_eq_zero.mp hlen.symm)
  constructor
  · have hmap_ne : e.subs.map curVal ≠ [] := by
      simpa using hsubs_ne
    have hmem := listMin_mem hmap_ne
    obtain ⟨v, hv, hveq⟩ := List.mem_map.mp hmem
    exact ⟨v, hv, by rw [hval]; exact hveq.symm⟩
  · intro v hv
    rw [hval]
    exact listMin_le (List.mem_map_of_mem curVal hv)

theorem claim1_witness :
    vMinors ≠ [] ∧
    ∀ e ∈ (mkMux vMinors).schemas,
      (∃ v ∈ e.subs, e.val = curVal v) ∧ ∀ v ∈ e.subs, e.val ≤ curVal v :=
  ⟨by decide, claim1 vMinors (by decide)⟩

/-- C2: the composite versions returned by `getSchemas()` are strictly
increasing in insertion order, and the number of entries is one plus
the sum over all sub-drivers of (maximum position - starting
position). -/
theorem claim2 (views : List SubView) :
    List.Pairwise lexLt ((muxGetSchemas (mkMux views)).map Prod.fst) ∧
    (muxGetSchemas (mkMux views)).length =
      1 + (views.map (fun d => (d.ios.length - 1) - d.pos)).sum := by
  constructor
  · rw [muxKeys_eq]
    exact List.pairwise_map.mpr (walk_pairwise views (0, 0))
  · show ((walk views (0, 0)).map _).length = _
    rw [List.length_map, walk_length]
    show remTotal views + 1 = 1 + remTotal views
    omega

/-- C3: upgrading through every key of `getSchemas()` after the first
(each strictly greater than the then-current version) succeeds at
every step, and afterwards `getSchema()` reports the final entry's
composite version - the maximum of all keys - together with its
interchange version. -/
theorem claim3 (views : List SubView) :
    ∃ sfin : MuxState,
      upgradeSeq (mkMux views)
          (((muxGetSchemas (mkMux views)).map Prod.fst).drop 1) = .ok sfin ∧
      muxGetSchema sfin =
        ((lastD (mkMux views).schemas default).ver,
         (lastD (mkMux views).schemas default).val) ∧
      ∀ k ∈ (muxGetSchemas (mkMux views)).map Prod.fst,
        lexLe k (lastD (mkMux views).schemas default).ver := by
  obtain ⟨tail, hE⟩ := walk_cons views (0, 0)
  have hpw := walk_pairwise views (0, 0)
  have hkeys : (muxGetSchemas (mkMux views)).map Prod.fst =
      (walk views (0, 0)).map MEntry.ver := muxKeys_eq (mkMux views)
  have hlast : lastD (mkMux views).schemas default =
      lastD tail ⟨(0, 0), views, minVal views⟩ := by
    show lastD (walk views (0, 0)) default = _
    rw [hE, lastD_cons]
  have hmain := upgradeSeq_entries (walk views (0, 0)) hpw tail []
      ⟨(0, 0), views, minVal views⟩ (by simpa using hE)
  refine ⟨⟨(lastD tail ⟨(0, 0), views, minVal views⟩).subs,
          (lastD tail ⟨(0, 0), views, minVal views⟩).ver,
          walk views (0, 0)⟩, ?_, ?_, ?_⟩
  · have hdrop : ((muxGetSchemas (mkMux views)).map Prod.fst).drop 1 =
        tail.map MEntry.ver := by
      rw [hkeys, hE]
      simp only [List.map_cons, List.drop_succ_cons, List.drop_zero]
    rw [hdrop]
    exact hmain
  · rw [hlast]
    have hmem : lastD tail ⟨(0, 0), views, minVal views⟩ ∈ walk views (0, 0) := by
      rw [hE]
      exact lastD_mem tail _
    have hval := (walk_mem hmem).1
    show (_, minVal _) = (_, _)
    rw [← hval]
  · intro k hk
    rw [hkeys] at hk
    obtain ⟨x, hx, rfl⟩ := List.mem_map.mp hk
    rw [hlast]
    refine mem_lexLe_lastD tail ⟨(0, 0), views, minVal views⟩ ?_ x ?_
    · rw [← hE]
      exact hpw
    · rw [← hE]
      exact hx

/-- C5: an upgrade target absent from the keys of `getSchemas()` fails
with `InvalidTargetError` (the call returns an error, so the driver
state is unchanged). -/
theorem claim5 (s : MuxState) (t : Nat × Nat)
    (h : t ∉ (muxGetSchemas s).map Prod.fst) :
    muxUpgrade s t = .error .invalidTarget := by
  apply muxUpgrade_none
  apply List.find?_eq_none.mpr
  intro x hx
  simp only [decide_eq_true_eq]
  intro heq
  apply h
  rw [muxKeys_eq]
  exact heq ▸ List.mem_map_of_mem MEntry.ver hx

theorem claim5_witness :
    ((9, 9) ∉ (muxGetSchemas (mkMux vDefault)).map Prod.fst) ∧
    muxUpgrade (mkMux vDefault) (9, 9) = .error .invalidTarget :=
  ⟨by decide, claim5 (mkMux vDefault) (9, 9) (by decide)⟩

/-- C4 (amended): an upgrade target that is among the keys of
`getSchemas()` but not strictly greater than the current composite
version fails with `RegressionError`; targets outside the composite
space fail with `InvalidTargetError` instead, even when they are below
the current version (see the counterexample). -/
theorem claim4_amended (s : MuxState) (t : Nat × Nat)
    (hmem : t ∈ (muxGetSchemas s).map Prod.fst) (hle : lexLe t s.ver) :
    muxUpgrade s t = .error .regression := by
  rw [muxKeys_eq] at hmem
  obtain ⟨x, hx, hxe⟩ := List.mem_map.mp hmem
  cases hf : s.schemas.find? (fun e => decide (e.ver = t)) with
  | none =>
    exfalso
    have hnone := List.find?_eq_none.mp hf x hx
    simp only [decide_eq_true_eq] at hnone
    exact hnone hxe
  | some e =>
    rw [muxUpgrade_some hf, if_neg (not_lexLt_of_lexLe hle)]

theorem claim4_amended_witness :
    ((0, 0) ∈ (muxGetSchemas (mkMux vDefault)).map Prod.fst) ∧
    lexLe (0, 0) (mkMux vDefault).ver ∧
    muxUpgrade (mkMux vDefault) (0, 0) = .error .regression :=
  ⟨by decide, by decide,
   claim4_amended (mkMux vDefault) (0, 0) (by decide) (by decide)⟩

/-- C4 is false as stated: after upgrading the default single-driver
mux to `(2, 0)`, upgrading to `(1, 5)` - a version below the current
one but absent from the composite space - fails with
`InvalidTargetError`, not `RegressionError`; and the `DummyDriver` of
the sources accepts an upgrade target equal to its current version
(its `upgrade` asserts `target >= current`), so that call succeeds
rather than failing. -/
theorem claim4_counterexample :
    okOf (muxUpgrade (mkMux vDefault) (2, 0)) = some sAfterTwo ∧
    sAfterTwo.ver = (2, 0) ∧
    lexLe (1, 5) sAfterTwo.ver ∧
    errOf (muxUpgrade sAfterTwo (1, 5)) = some MuxErr.invalidTarget ∧
    MuxErr.invalidTarget ≠ MuxErr.regression ∧
    (mkDummyDriver none).bind
        (fun d => dummyUpgrade d (d.major, d.minor)) = mkDummyDriver none ∧
    (mkDummyDriver none).isSome = true := by
  exact ⟨by decide, by decide, by decide, by decide, by decide, by decide,
         by decide⟩

/-- C6: with disjoint supported interchange ranges `[1, 2]` and
`[4, 5]`, the composite space has exactly 3 entries, terminates at
`(2, 0)` mapped to V2, and no entry is mapped to V4 or V5: every
effective version stays at or below the first driver's ceiling V2. -/
theorem claim6 :
    (mkMuxFromConfig cfgDisconnected).map muxGetSchemas =
      some entriesDisconnected ∧
    entriesDisconnected.length = 3 ∧
    entriesDisconnected.getLast? = some ((2, 0), 2) ∧
    ∀ e ∈ entriesDisconnected, e.2 ≠ 4 ∧ e.2 ≠ 5 ∧ e.2 ≤ 2 := by
  exact ⟨by decide, by decide, by decide, by decide⟩

theorem wsSplitAux_nil_acc {acc : List Char} (h : acc ≠ []) :
    wsSplitAux [] acc = [acc.reverse] := by
  cases acc with
  | nil => exact absurd rfl h
  | cons c cs => rfl

theorem wsSplitAux_spaces (s : List Char) (cs : List Char)
    (h : ∀ c ∈ s, isSpaceC c = true) :
    wsSplitAux (s ++ cs) [] = wsSplitAux cs [] := by
  induction s with
  | nil => rfl
  | cons c s' ih =>
    have hc : isSpaceC c = true := h c (by simp)
    show wsSplitAux (c :: (s' ++ cs)) [] = _
    rw [wsSplitAux, hc]
    simp only [if_true, List.isEmpty_nil]
    exact ih (fun d hd => h d (List.mem_cons_of_mem _ hd))

theorem wsSplitAux_token (t : List Char) :
    ∀ (cs acc : List Char), (∀ c ∈ t, isSpaceC c = false) →
      wsSplitAux (t ++ cs) acc = wsSplitAux cs (t.reverse ++ acc) := by
  induction t with
  | nil =>
    intro cs acc _
    simp
  | cons c t' ih =>
    intro cs acc h
    have hc : isSpaceC c = false := h c (by simp)
    show wsSplitAux (c :: (t' ++ cs)) acc = _
    rw [wsSplitAux, hc]
    simp only [Bool.false_eq_true, if_false]
    rw [ih cs (c :: acc) (fun d hd => h d (List.mem_cons_of_mem _ hd))]
    simp [List.append_assoc]

theorem wsSplitAux_sep (s cs acc : List Char) (hne : s ≠ [])
    (hs : ∀ c ∈ s, isSpaceC c = true) (hacc : acc ≠ []) :
    wsSplitAux (s ++ cs) acc = acc.reverse :: wsSplitAux cs [] := by
  cases s with
  | nil => exact absurd rfl hne
  | cons c s' =>
    have hc : isSpaceC c = true := hs c (by simp)
    have hae : acc.isEmpty = false := by
      cases acc with
      | nil => exact absurd rfl hacc
      | cons a as => rfl
    show wsSplitAux (c :: (s' ++ cs)) acc = _
    rw [wsSplitAux, hc]
    simp only [if_true, hae, Bool.false_eq_true, if_false]
    rw [wsSplitAux_spaces s' cs (fun d hd => hs d (List.mem_cons_of_mem _ hd))]

theorem assemble_shift (pairs : List (List Char × List Char)) (lead : List Char) :
    assemble lead pairs = lead ++ assemble [] pairs := by
  cases pairs with
  | nil => simp [assemble]
  | cons p rest => simp [assemble]

theorem goodPairs_cons {p : List Char × List Char}
    {rest : List (List Char × List Char)} (h : goodPairs (p :: rest) = true) :
    p.1 ≠ [] ∧ (∀ c ∈ p.1, isSpaceC c = false) ∧
      (∀ c ∈ p.2, isSpaceC c = true) ∧
      (rest = [] ∨ (p.2 ≠ [] ∧ goodPairs rest = true)) := by
  simp only [goodPairs, Bool.and_eq_true, Bool.or_eq_true, decide_eq_true_eq,
    List.all_eq_true, Bool.not_eq_true'] at h
  tauto

theorem wsSplit_assemble :
    ∀ (pairs : List (List Char × List Char)) (lead : List Char),
      (∀ c ∈ lead, isSpaceC c = true) → goodPairs pairs = true →
      wsSplit (assemble lead pairs) = pairs.map Prod.fst := by
  intro pairs
  induction pairs with
  | nil =>
    intro lead hlead _
    show wsSplitAux (assemble lead []) [] = []
    have ha : assemble lead [] = lead ++ [] := by simp [assemble]
    rw [ha, wsSplitAux_spaces lead [] hlead]
    rfl
  | cons p rest ih =>
    intro lead hlead hgood
    obtain ⟨t, s⟩ := p
    obtain ⟨h1, h2, h3, h4⟩ := goodPairs_cons hgood
    simp only at h1 h2 h3 h4
    have hshape : assemble lead ((t, s) :: rest) = lead ++ (t ++ assemble s rest) := by
      simp [assemble]
    show wsSplitAux (assemble lead ((t, s) :: rest)) [] = _
    rw [hshape, wsSplitAux_spaces lead _ hlead, wsSplitAux_token t _ [] h2,
      List.append_nil]
    have htrev : t.reverse ≠ [] := by
      simpa using h1
    cases rest with
    | nil =>
      have hs0 : assemble s ([] : List (List Char × List Char)) = s := rfl
      rw [hs0]
      cases s with
      | nil =>
        rw [wsSplitAux_nil_acc htrev]
        simp
      | cons c s' =>
        have hsep : wsSplitAux ((c :: s') ++ ([] : List Char)) t.reverse =
            t.reverse.reverse :: wsSplitAux [] [] :=
          wsSplitAux_sep (c :: s') [] t.reverse (by simp) h3 htrev
        rw [List.append_nil] at hsep
        rw [hsep]
        simp [wsSplitAux]
    | cons r rest' =>
      rcases h4 with h4 | ⟨hsne, hgrest⟩
      · cases h4
      · rw [assemble_shift (r :: rest') s,
          wsSplitAux_sep s _ t.reverse hsne h3 htrev, List.reverse_reverse]
        have := ih [] (by simp) hgrest
        rw [show wsSplitAux (assemble [] (r :: rest')) [] =
            wsSplit (assemble [] (r :: rest')) from rfl, this]
        simp

/-- C7: configuration strings listing the same driver entries in the
same order, separated by arbitrary nonempty runs of whitespace (space,
tab, newline, carriage return, vertical tab, form feed) and optionally
padded with leading/trailing whitespace, construct Mux Drivers with
identical `getSchemas()` output. -/
theorem claim7 (lead lead' : List Char) (pairs pairs' : List (List Char × List Char))
    (h1 : ∀ c ∈ lead, isSpaceC c = true) (h2 : ∀ c ∈ lead', isSpaceC c = true)
    (h3 : goodPairs pairs = true) (h4 : goodPairs pairs' = true)
    (h5 : pairs.map Prod.fst = pairs'.map Prod.fst) :
    (mkMuxFromConfig (assemble lead pairs)).map muxGetSchemas =
      (mkMuxFromConfig (assemble lead' pairs')).map muxGetSchemas := by
  unfold mkMuxFromConfig
  rw [wsSplit_assemble pairs lead h1 h3, wsSplit_assemble pairs' lead' h2 h4, h5]

theorem claim7_witness :
    (∀ c ∈ ([] : List Char), isSpaceC c = true) ∧
    goodPairs pairsSpace = true ∧ goodPairs pairsLong = true ∧
    pairsSpace.map Prod.fst = pairsLong.map Prod.fst ∧
    (mkMuxFromConfig (assemble [] pairsSpace)).map muxGetSchemas =
      (mkMuxFromConfig (assemble [] pairsLong)).map muxGetSchemas :=
  ⟨by decide, by decide, by decide, by decide,
   claim7 [] [] pairsSpace pairsLong (by decide) (by decide) (by decide)
     (by decide) (by decide)⟩

theorem mkDummy_spec {ps : Option (List Char)} {d : DummyState}
    (h : mkDummyDriver ps = some d) :
    ∃ p : DummyParams, parseDummyParams ps = some p ∧
      validDummyParams p = true ∧
      d = ⟨⟨dummySchemasOf p, p.majorStep.toNat, p.minorsPerMajor.toNat⟩,
           p.major.toNat, p.minor.toNat⟩ := by
  unfold mkDummyDriver at h
  cases hp : parseDummyParams ps with
  | none =>
    rw [hp] at h
    cases h
  | some p =>
    rw [hp] at h
    simp only at h
    by_cases hv : validDummyParams p = true
    · rw [if_pos hv] at h
      cases h
      exact ⟨p, rfl, hv, rfl⟩
    · rw [if_neg hv] at h
      cases h

theorem validDummy_facts {p : DummyParams} (hv : validDummyParams p = true) :
    p.minIoMajor ≤ p.maxIoMajor ∧ 1 ≤ p.majorsPerIoSchema ∧
      1 ≤ p.majorStep ∧ 0 ≤ p.major ∧ p.major % p.majorStep = 0 ∧
      0 ≤ p.minor ∧ 1 ≤ p.minorsPerMajor ∧ p.minor < p.minorsPerMajor ∧
      p.major / p.majorStep * p.minorsPerMajor + p.minor <
        ((dummySchemasOf p).length : Int) := by
  simp only [validDummyParams, Bool.and_eq_true, decide_eq_true_eq] at hv
  tauto

/-- C8: a sub-driver whose parsed parameters violate any of the
constructor's consistency assertions - minimum interchange major above
the maximum, non-positive step or granularity, an initial version
outside the configured range, and so on - fails configuration at
construction time (`mkDummyDriver` returns `none`), before any schema
query is possible. -/
theorem claim8 (ps : Option (List Char)) (p : DummyParams)
    (hp : parseDummyParams ps = some p)
    (hbad : p.maxIoMajor < p.minIoMajor ∨ p.majorsPerIoSchema < 1 ∨
      p.majorStep < 1 ∨ p.major < 0 ∨ ¬ p.major % p.majorStep = 0 ∨
      p.minor < 0 ∨ p.minorsPerMajor < 1 ∨ p.minorsPerMajor ≤ p.minor ∨
      ((dummySchemasOf p).length : Int) ≤
        p.major / p.majorStep * p.minorsPerMajor + p.minor) :
    mkDummyDriver ps = none := by
  have hv : validDummyParams p = false := by
    by_cases hvt : validDummyParams p = true
    · exfalso
      obtain ⟨f1, f2, f3, f4, f5, f6, f7, f8, f9⟩ := validDummy_facts hvt
      rcases hbad with hb | hb | hb | hb | hb | hb | hb | hb | hb
      · exact absurd f1 (not_le.mpr hb)
      · exact absurd f2 (not_le.mpr hb)
      · exact absurd f3 (not_le.mpr hb)
      · exact absurd f4 (not_le.mpr hb)
      · exact hb f5
      · exact absurd f6 (not_le.mpr hb)
      · exact absurd f7 (not_le.mpr hb)
      · exact absurd f8 (not_lt.mpr hb)
      · exact absurd f9 (not_lt.mpr hb)
    · cases hvv : validDummyParams p
      · rfl
      · exact absurd hvv hvt
  simp only [mkDummyDriver, hp, hv]
  simp

theorem claim8_witness :
    parseDummyParams (some ("10:1").toList) = some pW8 ∧
    pW8.maxIoMajor < pW8.minIoMajor ∧
    mkDummyDriver (some ("10:1").toList) = none :=
  ⟨by decide, by decide,
   claim8 (some ("10:1").toList) pW8 (by decide) (Or.inl (by decide))⟩

theorem replicate_pairwise_le (n a : Nat) :
    List.Pairwise (fun x y : Nat => x ≤ y) (List.replicate n a) := by
  induction n with
  | zero => simp
  | succ m ih =>
    rw [List.replicate_succ]
    exact List.Pairwise.cons
      (fun x hx => le_of_eq (List.eq_of_mem_replicate hx).symm) ih

theorem blockRep_pairwise (B : Nat) (ios : List Nat)
    (h : List.Pairwise (fun x y : Nat => x ≤ y) ios) :
    List.Pairwise (fun x y : Nat => x ≤ y) (blockRep B ios) := by
  unfold blockRep
  rw [List.pairwise_flatten]
  constructor
  · intro l hl
    obtain ⟨a, _, rfl⟩ := List.mem_map.mp hl
    exact replicate_pairwise_le B a
  · apply List.pairwise_map.mpr
    apply h.imp
    intro a b hab x hx y hy
    rw [List.eq_of_mem_replicate hx, List.eq_of_mem_replicate hy]
    exact hab

theorem blockRep_length (B : Nat) (ios : List Nat) :
    (blockRep B ios).length = B * ios.length := by
  induction ios with
  | nil => simp [blockRep]
  | cons x rest ih =>
    unfold blockRep at ih ⊢
    simp only [List.map_cons, List.flatten_cons, List.length_append,
      List.length_replicate, ih, List.length_cons]
    ring

theorem blockRep_getD (B : Nat) (ios : List Nat) (hB : 0 < B) :
    ∀ (j : Nat), j < B * ios.length →
      (blockRep B ios).getD j 0 = ios.getD (j / B) 0 := by
  induction ios with
  | nil =>
    intro j hj
    simp at hj
  | cons x rest ih =>
    intro j hj
    have hbr : blockRep B (x :: rest) = List.replicate B x ++ blockRep B rest := by
      simp [blockRep]
    rw [hbr]
    by_cases hjB : j < B
    · rw [List.getD_append _ _ 0 j (by simpa using hjB)]
      rw [Nat.div_eq_of_lt hjB]
      rw [List.getD_eq_getElem _ _ (by simpa using hjB)]
      simp
    · push_neg at hjB
      rw [List.getD_append_right _ _ 0 j (by simpa using hjB)]
      rw [List.length_replicate]
      have hj' : j - B < B * rest.length := by
        rw [List.length_cons, Nat.mul_succ] at hj
        generalize hC : B * rest.length = C at hj ⊢
        omega
      have hdiv : j / B = (j - B) / B + 1 := Nat.div_eq_sub_div hB hjB
      rw [ih (j - B) hj', hdiv, List.getD_cons_succ]

theorem blockQuot (k mpm q r : Nat) (hk : 0 < k) (hmpm : 0 < mpm) (hr : r < mpm) :
    (q * mpm + r) / (k * mpm) = q / k := by
  have hq : k * (q / k) + q % k = q := Nat.div_add_mod q k
  have hb : q % k < k := Nat.mod_lt _ hk
  have hqm : q * mpm + r = (k * mpm) * (q / k) + ((q % k) * mpm + r) := by
    calc q * mpm + r = (k * (q / k) + q % k) * mpm + r := by rw [hq]
      _ = (k * mpm) * (q / k) + ((q % k) * mpm + r) := by ring
  have hlt : (q % k) * mpm + r < k * mpm := by
    have h1 : (q % k + 1) * mpm ≤ k * mpm := mul_le_mul_right' (by omega) mpm
    rw [Nat.add_mul, Nat.one_mul] at h1
    exact Nat.lt_of_lt_of_le (Nat.add_lt_add_left hr _) h1
  rw [hqm, Nat.mul_add_div (Nat.mul_pos hk hmpm)]
  rw [Nat.div_eq_of_lt hlt, Nat.add_zero]

theorem key_major_eq (ms mpm i : Nat) (hmpm : 1 ≤ mpm) :
    i * ms / mpm = i / mpm * ms + i % mpm * ms / mpm := by
  have hi : mpm * (i / mpm) + i % mpm = i := Nat.div_add_mod i mpm
  calc i * ms / mpm
      = (mpm * (i / mpm) + i % mpm) * ms / mpm := by rw [hi]
    _ = (mpm * (i / mpm * ms) + i % mpm * ms) / mpm := by
        congr 1
        ring
    _ = i / mpm * ms + i % mpm * ms / mpm := by
        rw [Nat.mul_add_div (by omega)]

theorem key_rem_lt (ms mpm i : Nat) (hms : 1 ≤ ms) (hmpm : 1 ≤ mpm) :
    i % mpm * ms / mpm < ms := by
  rw [Nat.div_lt_iff_lt_mul (by omega : 0 < mpm)]
  have hr : i % mpm < mpm := Nat.mod_lt _ (by omega)
  calc i % mpm * ms < mpm * ms := mul_lt_mul_of_pos_right hr (by omega)
    _ = ms * mpm := Nat.mul_comm _ _

theorem key_div_eq (ms mpm i : Nat) (hms : 1 ≤ ms) (hmpm : 1 ≤ mpm) :
    i * ms / mpm / ms = i / mpm := by
  rw [key_major_eq ms mpm i hmpm]
  rw [Nat.mul_comm (i / mpm) ms]
  rw [Nat.mul_add_div (by omega : 0 < ms)]
  rw [Nat.div_eq_of_lt (key_rem_lt ms mpm i hms hmpm), Nat.add_zero]

theorem dummyKey_step (ms mpm i : Nat) (hms : 1 ≤ ms) (hmpm : 1 ≤ mpm) :
    lexLt (dummyKey ms mpm i) (dummyKey ms mpm (i + 1)) := by
  have hdm : mpm * (i / mpm) + i % mpm = i := Nat.div_add_mod i mpm
  have hr : i % mpm < mpm := Nat.mod_lt _ (by omega)
  by_cases hc : i % mpm + 1 = mpm
  · -- the minor wraps around: the major must strictly increase
    left
    have hi1 : i + 1 = mpm * (i / mpm + 1) := by
      rw [Nat.mul_succ]
      generalize hA : mpm * (i / mpm) = A at hdm ⊢
      omega
    have hmod1 : (i + 1) % mpm = 0 := by
      rw [hi1]
      exact Nat.mul_mod_right mpm _
    have hdiv1 : (i + 1) / mpm = i / mpm + 1 := by
      rw [hi1]
      exact Nat.mul_div_cancel_left _ (by omega)
    show i * ms / mpm < (i + 1) * ms / mpm
    rw [key_major_eq ms mpm i hmpm, key_major_eq ms mpm (i + 1) hmpm]
    rw [hmod1, hdiv1, Nat.zero_mul, Nat.zero_div, Nat.add_zero, Nat.succ_mul]
    exact Nat.add_lt_add_left (key_rem_lt ms mpm i hms hmpm) _
  · -- the driver's own minor advances: the stored minor increases
    have hmod1 : (i + 1) % mpm = i % mpm + 1 := by
      have hi1 : i + 1 = mpm * (i / mpm) + (i % mpm + 1) := by
        generalize hA : mpm * (i / mpm) = A at hdm ⊢
        omega
      rw [hi1, Nat.mul_add_mod, Nat.mod_eq_of_lt (by omega)]
    have hle : i * ms / mpm ≤ (i + 1) * ms / mpm :=
      Nat.div_le_div_right (mul_le_mul_right' (Nat.le_succ i) ms)
    rcases Nat.lt_or_eq_of_le hle with hlt | heq
    · exact Or.inl hlt
    · refine Or.inr ⟨heq, ?_⟩
      show i % mpm < (i + 1) % mpm
      rw [hmod1]
      exact Nat.lt_succ_self _

theorem dummyKey_mono (ms mpm : Nat) (hms : 1 ≤ ms) (hmpm : 1 ≤ mpm)
    {i j : Nat} (hij : i < j) :
    lexLt (dummyKey ms mpm i) (dummyKey ms mpm j) := by
  induction hij with
  | refl => exact dummyKey_step ms mpm i hms hmpm
  | step h ih => exact lexLt_trans ih (dummyKey_step ms mpm _ hms hmpm)

theorem mkDummy_cfg {ps : Option (List Char)} {d : DummyState}
    (h : mkDummyDriver ps = some d) :
    1 ≤ d.cfg.majorStep ∧ 1 ≤ d.cfg.minorsPerMajor ∧
      ∃ k ios, 1 ≤ k ∧ List.Pairwise (fun x y : Nat => x ≤ y) ios ∧
        d.cfg.schemas = blockRep (k * d.cfg.minorsPerMajor) ios := by
  obtain ⟨p, hp, hv, rfl⟩ := mkDummy_spec h
  obtain ⟨f1, f2, f3, f4, f5, f6, f7, f8, f9⟩ := validDummy_facts hv
  refine ⟨by simp only; omega, by simp only; omega,
    p.majorsPerIoSchema.toNat,
    ioHistory.filter (fun x : Nat =>
      decide (p.minIoMajor ≤ (x : Int)) && decide ((x : Int) ≤ p.maxIoMajor)),
    by omega, ?_, ?_⟩
  · exact List.Pairwise.filter _ (by decide)
  · show dummySchemasOf p = blockRep _ _
    unfold dummySchemasOf blockRep
    congr 2
    obtain ⟨a, ha⟩ := Int.eq_ofNat_of_zero_le (by omega : 0 ≤ p.majorsPerIoSchema)
    obtain ⟨b, hb⟩ := Int.eq_ofNat_of_zero_le (by omega : 0 ≤ p.minorsPerMajor)
    rw [ha, hb, ← Int.natCast_mul, Int.toNat_natCast, Int.toNat_natCast,
      Int.toNat_natCast]

/-- C9: for every successfully constructed sub-driver, `get_schemas()`
is an ordered association list whose `(major, minor)` keys are strictly
increasing in insertion order (hence unique, each mapped to exactly one
interchange version) and whose interchange versions are monotonically
non-decreasing along that order. -/
theorem claim9 (ps : Option (List Char)) (d : DummyState)
    (h : mkDummyDriver ps = some d) :
    List.Pairwise
      (fun a b : (Nat × Nat) × Nat => lexLt a.1 b.1 ∧ a.2 ≤ b.2)
      (dummyGetSchemas d) := by
  obtain ⟨hms, hmpm, k, ios, hk, hios, hblock⟩ := mkDummy_cfg h
  have hsorted : List.Pairwise (fun x y : Nat => x ≤ y) d.cfg.schemas := by
    rw [hblock]
    exact blockRep_pairwise _ _ hios
  unfold dummyGetSchemas
  rw [List.pairwise_map, List.pairwise_iff_getElem]
  intro i j hi hj hij
  simp only [List.getElem_range]
  have hi' : i < d.cfg.schemas.length := by simpa using hi
  have hj' : j < d.cfg.schemas.length := by simpa using hj
  constructor
  · exact dummyKey_mono _ _ hms hmpm hij
  · rw [List.getD_eq_getElem _ _ hi', List.getD_eq_getElem _ _ hj']
    exact List.pairwise_iff_getElem.mp hsorted i j hi' hj' hij

theorem claim9_witness :
    mkDummyDriver none = some dW0 ∧
    List.Pairwise
      (fun a b : (Nat × Nat) × Nat => lexLt a.1 b.1 ∧ a.2 ≤ b.2)
      (dummyGetSchemas dW0) :=
  ⟨by decide, claim9 none dW0 (by decide)⟩

theorem dummyReach_cfg {a b : DummyState} (h : DummyReach a b) :
    b.cfg = a.cfg := by
  induction h with
  | refl => rfl
  | step d2 d3 t hr hu ih =>
    have hcfg : d3.cfg = d2.cfg := by
      unfold dummyUpgrade at hu
      split at hu
      · cases hu
        rfl
      · cases hu
    rw [hcfg, ih]

/-- C10: in every state reachable from a successfully constructed
sub-driver through upgrades, whenever the current `(major, minor)`
version appears as a key of `get_schemas()`, the interchange version
returned by `get_schema()` - computed from the major version alone,
ignoring the minor - equals the value `get_schemas()` associates with
that key, so the two queries never disagree. -/
theorem claim10 (ps : Option (List Char)) (d d' : DummyState)
    (h : mkDummyDriver ps = some d) (hr : DummyReach d d') :
    ∀ e ∈ dummyGetSchemas d', e.1 = (d'.major, d'.minor) →
      dummyGetSchema d' = ((d'.major, d'.minor), e.2) := by
  intro e he hkey
  obtain ⟨hms, hmpm, k, ios, hk, hios, hblock⟩ := mkDummy_cfg h
  have hcfg := dummyReach_cfg hr
  have hms' : 1 ≤ d'.cfg.majorStep := by rw [hcfg]; exact hms
  have hmpm' : 1 ≤ d'.cfg.minorsPerMajor := by rw [hcfg]; exact hmpm
  have hblock' : d'.cfg.schemas = blockRep (k * d'.cfg.minorsPerMajor) ios := by
    rw [hcfg]; exact hblock
  obtain ⟨i, hir, hfe⟩ := List.mem_map.mp he
  have hi : i < d'.cfg.schemas.length := List.mem_range.mp hir
  have hfst : dummyKey d'.cfg.majorStep d'.cfg.minorsPerMajor i =
      (d'.major, d'.minor) := by
    rw [← hkey, ← hfe]
  have hsnd : e.2 = d'.cfg.schemas.getD i 0 := by
    rw [← hfe]
  have hM : d'.major = i * d'.cfg.majorStep / d'.cfg.minorsPerMajor := by
    have := congrArg Prod.fst hfst
    simpa [dummyKey] using this.symm
  have hBpos : 0 < k * d'.cfg.minorsPerMajor :=
    Nat.mul_pos (by omega) (by omega)
  have hlen : d'.cfg.schemas.length = k * d'.cfg.minorsPerMajor * ios.length := by
    rw [hblock', blockRep_length]
  have hq : d'.major / d'.cfg.majorStep = i / d'.cfg.minorsPerMajor := by
    rw [hM]
    exact key_div_eq _ _ i hms' hmpm'
  have hile : i / d'.cfg.minorsPerMajor * d'.cfg.minorsPerMajor ≤ i :=
    Nat.div_mul_le_self i _
  have h1 : d'.cfg.schemas.getD
      (i / d'.cfg.minorsPerMajor * d'.cfg.minorsPerMajor) 0 =
      ios.getD ((i / d'.cfg.minorsPerMajor * d'.cfg.minorsPerMajor) /
        (k * d'.cfg.minorsPerMajor)) 0 := by
    rw [hblock']
    exact blockRep_getD _ _ hBpos _ (lt_of_le_of_lt hile (hlen ▸ hi))
  have h2 : d'.cfg.schemas.getD i 0 =
      ios.getD (i / (k * d'.cfg.minorsPerMajor)) 0 := by
    rw [hblock']
    exact blockRep_getD _ _ hBpos _ (hlen ▸ hi)
  have hdm : i = i / d'.cfg.minorsPerMajor * d'.cfg.minorsPerMajor +
      i % d'.cfg.minorsPerMajor := by
    have hx := Nat.div_add_mod i d'.cfg.minorsPerMajor
    rw [Nat.mul_comm] at hx
    exact hx.symm
  have hrlt : i % d'.cfg.minorsPerMajor < d'.cfg.minorsPerMajor :=
    Nat.mod_lt _ (by omega)
  have hquot : (i / d'.cfg.minorsPerMajor * d'.cfg.minorsPerMajor) /
      (k * d'.cfg.minorsPerMajor) = i / (k * d'.cfg.minorsPerMajor) := by
    conv_rhs => rw [hdm]
    rw [blockQuot _ _ _ _ (by omega) (by omega) hrlt]
    conv_lhs => rw [show i / d'.cfg.minorsPerMajor * d'.cfg.minorsPerMajor =
      i / d'.cfg.minorsPerMajor * d'.cfg.minorsPerMajor + 0 from rfl]
    rw [blockQuot _ _ _ _ (by omega) (by omega) (by omega)]
  show ((d'.major, d'.minor),
    d'.cfg.schemas.getD (d'.major / d'.cfg.majorStep * d'.cfg.minorsPerMajor) 0) =
    ((d'.major, d'.minor), e.2)
  rw [hq, hsnd, h1, h2, hquot]

theorem claim10_witness :
    mkDummyDriver none = some dW0 ∧
    dummyUpgrade dW0 (2, 0) = some dW1 ∧
    (∀ e ∈ dummyGetSchemas dW1, e.1 = (dW1.major, dW1.minor) →
      dummyGetSchema dW1 = ((dW1.major, dW1.minor), e.2)) :=
  ⟨by decide, by decide,
   claim10 none dW0 dW1 (by decide)
     (DummyReach.step dW0 dW0 dW1 (2, 0) (DummyReach.refl dW0) (by decide))⟩

/-- Model validation: the default `DummyDriver` exposes
`{(0,0): V1, (1,0): V2, (2,0): V3, (3,0): V4, (4,0): V5}` and currently
reports `((0,0), V1)`. -/
theorem model_ref_dummy :
    (mkDummyDriver none).map dummyGetSchemas =
      some [((0, 0), 1), ((1, 0), 2), ((2, 0), 3), ((3, 0), 4), ((4, 0), 5)] ∧
    (mkDummyDriver none).map dummyGetSchema = some ((0, 0), 1) := by
  exact ⟨by decide, by decide⟩
